import Mathlib

/-!
Shallow embedding of the memr belief engine.

The model follows the TypeScript source:
* `src/src/storage/belief-store.ts` — the `BeliefStore` class: the belief
  table is modelled as a `List Belief` (rows in insertion order), each SQL
  statement as an explicit function from the old list to the new one.
* the embeddings module (`generateEmbedding`, `cosineSimilarity`) — pure
  functions over `List ℚ`.  JavaScript numbers are modelled as rationals;
  `Math.sqrt`, the one primitive with no rational counterpart, is abstracted
  as an explicit function parameter `sq : ℚ → ℚ`, and theorems about
  normalisation assume of `sq` only what `Math.sqrt` provides at the values
  where it is applied.
* the FTS5 keyword index lives in the storage engine, outside the source of
  the repository; `searchKeyword` therefore receives the engine's answer to
  the `MATCH ?` / `ORDER BY rank` part (the matching rows in rank order) as
  the explicit argument `ftsRanked` and performs the remaining `WHERE`
  filters and `LIMIT` of its SQL itself.
* SQLite arithmetic: both `Date.now()` timestamps and the stored
  `last_evaluated` column are INTEGER values, so the `/` inside
  `applyConfidenceDecay`'s UPDATE is SQLite integer division, which
  truncates toward zero — modelled with `Int.tdiv`.
-/

/-- Belief domain tags (`BeliefDomain` in src/types). -/
inductive BeliefDomain where
  | code_pattern
  | user_preference
  | project_structure
  | workflow
  | decision
  | constraint
deriving DecidableEq, Inhabited

/-- A belief row (`Belief` in src/types / the `beliefs` table). -/
structure Belief where
  id : String
  text : String
  domain : BeliefDomain
  confidence : ℚ
  evidence_ids : List String
  supporting_count : Nat
  contradicting_count : Nat
  derived_at : Int
  last_evaluated : Int
  supersedes_id : Option String
  invalidated_at : Option Int
  invalidation_reason : Option String
  importance : ℚ
  tags : List String
  embedding : Option (List ℚ)
deriving DecidableEq, Inhabited

/-- The numeric configuration constants the belief store reads
(`DEFAULT_CONFIG` in src/types). -/
structure EngineConfig where
  minConfidenceFloor : ℚ
  confidenceDecayPerDay : ℚ
  contradictionThreshold : Nat
deriving DecidableEq, Inhabited

/-- Default configuration: floor 0.3, decay 0.01 per day, threshold 3. -/
def defaultEngineConfig : EngineConfig :=
  { minConfidenceFloor := 3 / 10
    confidenceDecayPerDay := 1 / 100
    contradictionThreshold := 3 }

/-- One day in milliseconds (`24 * 60 * 60 * 1000` in `applyConfidenceDecay`). -/
def dayInMs : Int := 86400000

/-! ## Embeddings (`generateEmbedding`, `cosineSimilarity`) -/

/-- An `embedding[idx] += x` statement of `generateEmbedding`'s loop. -/
def addAt (v : List ℚ) (idx : Nat) (x : ℚ) : List ℚ :=
  v.set idx (v.getD idx 0 + x)

/-- One iteration (character position `i`) of `generateEmbedding`'s loop:
primary hash, bigram hash for `i > 0`, word-boundary hash on a space that is
not the last character. -/
def embStep (dims : Nat) (chars : List Char) (acc : List ℚ) (p : Nat × Char) : List ℚ :=
  let i := p.1
  let code := p.2.toNat
  let acc1 := addAt acc (code * (i + 1) % dims) (1 / (i + 1 : ℚ))
  let acc2 :=
    if 0 < i then
      addAt acc1 (((chars.getD (i - 1) ' ').toNat * 31 + code) % dims) ((1 / 2) / (i + 1 : ℚ))
    else acc1
  if p.2 = ' ' ∧ i < chars.length - 1 then
    addAt acc2 (((chars.getD (i + 1) ' ').toNat * 17 + i) % dims) (3 / 10)
  else acc2

/-- The accumulation phase of `generateEmbedding`: a zero vector of length
`dims` updated once per character of the lower-cased text
(`text.toLowerCase()`, modelled as per-character lowering). -/
def rawEmbedding (text : String) (dims : Nat) : List ℚ :=
  let chars := text.toList.map Char.toLower
  chars.enum.foldl (embStep dims chars) (List.replicate dims 0)

/-- The squared magnitude `embedding.reduce((sum, v) => sum + v * v, 0)`. -/
def sqNorm (v : List ℚ) : ℚ :=
  v.foldl (fun sum x => sum + x * x) 0

/-- The embedding generator (embeddings module, `generateEmbedding`):
accumulate, then divide every component by the magnitude when it is
positive.  `sq` stands for `Math.sqrt`. -/
def generateEmbedding (sq : ℚ → ℚ) (text : String) (dims : Nat) : List ℚ :=
  let e := rawEmbedding text dims
  let magnitude := sq (sqNorm e)
  if 0 < magnitude then e.map (fun x => x / magnitude) else e

/-- Cosine similarity (embeddings module, `cosineSimilarity`): a hard error on
a length mismatch, `0` when the product of the magnitudes is zero, otherwise
`dot / (sqrt(normA) * sqrt(normB))`. -/
def cosineSimilarity (sq : ℚ → ℚ) (a b : List ℚ) : Except String ℚ :=
  if a.length ≠ b.length then
    Except.error "Vectors must have the same length"
  else
    let dotProduct := ((a.zip b).map (fun p => p.1 * p.2)).sum
    let magnitude := sq (sqNorm a) * sq (sqNorm b)
    if magnitude = 0 then Except.ok 0 else Except.ok (dotProduct / magnitude)

/-! ## Search options and JavaScript truthiness -/

/-- The optional search filters (`SearchOptions` in src/types). -/
structure SearchOptions where
  minConfidence : Option ℚ := none
  domain : Option BeliefDomain := none
  limit : Option Nat := none
  activeOnly : Option Bool := none
deriving DecidableEq, Inhabited

/-- JavaScript truthiness of `options.minConfidence`: the guard
`if (options.minConfidence)` treats the value 0 like an absent one. -/
def truthyConf (o : Option ℚ) : Option ℚ :=
  match o with
  | some c => if c = 0 then none else some c
  | none => none

/-- JavaScript truthiness of `options.limit`: `if (options.limit)` treats the
value 0 like an absent one. -/
def truthyLimit (o : Option Nat) : Option Nat :=
  match o with
  | some n => if n = 0 then none else some n
  | none => none

/-- The expression `options.limit || 10` of `searchSemantic`/`searchHybrid`. -/
def defaultLimit (o : Option Nat) : Nat :=
  (truthyLimit o).getD 10

/-! ## BeliefStore read and write operations -/

/-- The `WHERE` filter of `getActive` (belief-store, lines 74–99):
always `invalidated_at IS NULL`, plus a confidence bound and a domain test
when those options are truthy. -/
def getActiveFilter (opts : SearchOptions) (b : Belief) : Bool :=
  b.invalidated_at.isNone
    && (match truthyConf opts.minConfidence with
        | some c => decide (c ≤ b.confidence)
        | none => true)
    && (match opts.domain with
        | some d => decide (b.domain = d)
        | none => true)

/-- The `ORDER BY importance DESC, confidence DESC` comparison of
`getActive`: `a` may come before `b` when its importance is larger, or equal
with at least the same confidence. -/
def impConfLE (a b : Belief) : Bool :=
  decide (b.importance < a.importance)
    || (decide (a.importance = b.importance) && decide (b.confidence ≤ a.confidence))

/-- `getActive` (belief-store, lines 74–99): filter, order, and truncate only
when `options.limit` is truthy. -/
def getActive (db : List Belief) (opts : SearchOptions) : List Belief :=
  let rows := (db.filter (getActiveFilter opts)).mergeSort impConfLE
  match truthyLimit opts.limit with
  | some l => rows.take l
  | none => rows

/-- A belief before `create` assigns its identifier (`Omit<Belief, 'id'>`). -/
structure NewBelief where
  text : String
  domain : BeliefDomain
  confidence : ℚ
  evidence_ids : List String
  supporting_count : Nat
  contradicting_count : Nat
  derived_at : Int
  last_evaluated : Int
  supersedes_id : Option String
  invalidated_at : Option Int
  invalidation_reason : Option String
  importance : ℚ
  tags : List String
  embedding : Option (List ℚ)
deriving DecidableEq, Inhabited

/-- JavaScript `x || null` on an optional string column: the empty string is
falsy and becomes NULL. -/
def orNullStr (o : Option String) : Option String :=
  match o with
  | some s => if s = "" then none else some s
  | none => none

/-- JavaScript `x || null` on an optional numeric column: 0 is falsy and
becomes NULL. -/
def orNullInt (o : Option Int) : Option Int :=
  match o with
  | some t => if t = 0 then none else some t
  | none => none

/-- `create` (belief-store, lines 12–51): generate an embedding when none is
supplied, return the full record, and insert a row (with the `|| null`
coercions of the `stmt.run` call).  The fresh uuid is the parameter
`newId`. -/
def create (sq : ℚ → ℚ) (newId : String) (nb : NewBelief) (db : List Belief) :
    Belief × List Belief :=
  let embedding :=
    match nb.embedding with
    | some e => e
    | none => generateEmbedding sq nb.text 384
  let fullBelief : Belief :=
    { id := newId
      text := nb.text
      domain := nb.domain
      confidence := nb.confidence
      evidence_ids := nb.evidence_ids
      supporting_count := nb.supporting_count
      contradicting_count := nb.contradicting_count
      derived_at := nb.derived_at
      last_evaluated := nb.last_evaluated
      supersedes_id := nb.supersedes_id
      invalidated_at := nb.invalidated_at
      invalidation_reason := nb.invalidation_reason
      importance := nb.importance
      tags := nb.tags
      embedding := some embedding }
  let row : Belief :=
    { fullBelief with
      supersedes_id := orNullStr nb.supersedes_id
      invalidated_at := orNullInt nb.invalidated_at
      invalidation_reason := orNullStr nb.invalidation_reason }
  (fullBelief, db ++ [row])

/-- `getById` (belief-store, lines 53–59): the first row with the id, or an
absence signal. -/
def getById (db : List Belief) (id : String) : Option Belief :=
  db.find? (fun b => decide (b.id = id))

/-- The partial change set of `update` (the optional fields the method
inspects; `invalidated_at`, `invalidation_reason`, `domain`, `derived_at` and
`supersedes_id` have no branch in the source and can never be updated). -/
structure BeliefChanges where
  text : Option String := none
  confidence : Option ℚ := none
  evidence_ids : Option (List String) := none
  supporting_count : Option Nat := none
  contradicting_count : Option Nat := none
  last_evaluated : Option Int := none
  importance : Option ℚ := none
  tags : Option (List String) := none
  embedding : Option (List ℚ) := none
deriving DecidableEq, Inhabited

/-- The `updates.length === 0` test of `update`: no branch pushed a SET
clause. -/
def BeliefChanges.isEmpty (c : BeliefChanges) : Bool :=
  c.text.isNone && c.confidence.isNone && c.evidence_ids.isNone
    && c.supporting_count.isNone && c.contradicting_count.isNone
    && c.last_evaluated.isNone && c.importance.isNone && c.tags.isNone
    && c.embedding.isNone

/-- Apply the SET clauses of `update` to one row: only supplied fields
change. -/
def applyChanges (c : BeliefChanges) (b : Belief) : Belief :=
  { b with
    text := c.text.getD b.text
    confidence := c.confidence.getD b.confidence
    evidence_ids := c.evidence_ids.getD b.evidence_ids
    supporting_count := c.supporting_count.getD b.supporting_count
    contradicting_count := c.contradicting_count.getD b.contradicting_count
    last_evaluated := c.last_evaluated.getD b.last_evaluated
    importance := c.importance.getD b.importance
    tags := c.tags.getD b.tags
    embedding :=
      match c.embedding with
      | some e => some e
      | none => b.embedding }

/-- `update` (belief-store, lines 101–153): not-found signal, no write for an
empty change set, otherwise `UPDATE ... WHERE id = ?` followed by a
re-read. -/
def update (db : List Belief) (id : String) (c : BeliefChanges) :
    Option Belief × List Belief :=
  match getById db id with
  | none => (none, db)
  | some existing =>
    if c.isEmpty then (some existing, db)
    else
      let db' := db.map (fun b => if b.id = id then applyChanges c b else b)
      (getById db' id, db')

/-- The `WHERE id = ? AND invalidated_at IS NULL` guard of `invalidate`. -/
def invalidateTouched (id : String) (b : Belief) : Bool :=
  decide (b.id = id) && b.invalidated_at.isNone

/-- `invalidate` (belief-store, lines 155–164): set the invalidation fields
only on a currently active row with the id; report `result.changes > 0`. -/
def invalidate (db : List Belief) (id : String) (reason : String) (now : Int) :
    Bool × List Belief :=
  (0 < db.countP (invalidateTouched id),
   db.map (fun b =>
     if invalidateTouched id b then
       { b with invalidated_at := some now, invalidation_reason := some reason }
     else b))

/-- `incrementSupporting` (belief-store, lines 173–178). -/
def incrementSupporting (db : List Belief) (id : String) : List Belief :=
  db.map (fun b =>
    if b.id = id then { b with supporting_count := b.supporting_count + 1 } else b)

/-- `incrementContradicting` (belief-store, lines 166–171). -/
def incrementContradicting (db : List Belief) (id : String) : List Belief :=
  db.map (fun b =>
    if b.id = id then { b with contradicting_count := b.contradicting_count + 1 } else b)

/-- `adjustConfidence` (belief-store, lines 180–194): a no-op for an empty id
list, otherwise `confidence = MAX(floor, MIN(1.0, confidence + delta))` on
every listed row. -/
def adjustConfidence (floor : ℚ) (ids : List String) (delta : ℚ) (db : List Belief) :
    List Belief :=
  if ids.isEmpty then db
  else
    db.map (fun b =>
      if ids.contains b.id then
        { b with confidence := max floor (min 1 (b.confidence + delta)) }
      else b)

/-- Elapsed whole days `(now - last_evaluated) / dayInMs`: SQLite integer
division of two INTEGER operands truncates toward zero. -/
def elapsedDays (now last : Int) : Int :=
  (now - last).tdiv dayInMs

/-- The `WHERE invalidated_at IS NULL AND confidence > ?` guard of
`applyConfidenceDecay`. -/
def decayTouched (floor : ℚ) (b : Belief) : Bool :=
  b.invalidated_at.isNone && decide (floor < b.confidence)

/-- The SET expression of `applyConfidenceDecay`'s UPDATE:
`MAX(floor, confidence - decayPerDay * ((now - last_evaluated) / dayInMs))`. -/
def decayedConfidence (floor decayPerDay : ℚ) (now : Int) (b : Belief) : ℚ :=
  max floor (b.confidence - decayPerDay * ((elapsedDays now b.last_evaluated : Int) : ℚ))

/-- `applyConfidenceDecay` (belief-store, lines 345–367): one bulk UPDATE
lowering the confidence of every active row above the floor, clamped at the
floor; returns `result.changes`, the number of rows the UPDATE processed. -/
def applyConfidenceDecay (floor decayPerDay : ℚ) (now : Int) (db : List Belief) :
    Nat × List Belief :=
  (db.countP (decayTouched floor),
   db.map (fun b =>
     if decayTouched floor b then
       { b with confidence := decayedConfidence floor decayPerDay now b }
     else b))

/-! ## Retrieval engine -/

/-- The extra `WHERE` filters of `searchKeyword`'s SQL (belief-store, lines
196–229): active-state unless `options.activeOnly === false`, then the truthy
confidence and domain filters. -/
def keywordFilter (opts : SearchOptions) (b : Belief) : Bool :=
  (if opts.activeOnly = some false then true else b.invalidated_at.isNone)
    && (match truthyConf opts.minConfidence with
        | some c => decide (c ≤ b.confidence)
        | none => true)
    && (match opts.domain with
        | some d => decide (b.domain = d)
        | none => true)

/-- `searchKeyword` (belief-store, lines 196–229).  `ftsRanked` is the storage
engine's answer to `beliefs_fts MATCH ?` in `ORDER BY rank` order; the
function applies the remaining filters and the truthy `LIMIT`. -/
def searchKeyword (ftsRanked : List Belief) (opts : SearchOptions) : List Belief :=
  let rows := ftsRanked.filter (keywordFilter opts)
  match truthyLimit opts.limit with
  | some l => rows.take l
  | none => rows

/-- Match provenance tag of a search result (`BeliefSearchResult.matchType`). -/
inductive MatchType where
  | semantic
  | keyword
  | hybrid
deriving DecidableEq, Inhabited

/-- A scored search result (`BeliefSearchResult` in src/types). -/
structure BeliefSearchResult where
  belief : Belief
  score : ℚ
  matchType : MatchType
deriving DecidableEq, Inhabited

/-- The comparator `(a, b) => b.score - a.score`: descending by score.
JavaScript's `Array.prototype.sort` is stable, as is `List.mergeSort`. -/
def scoreLE (a b : BeliefSearchResult) : Bool :=
  decide (b.score ≤ a.score)

/-- `searchSemantic` (belief-store, lines 231–254): score every active belief
carrying an embedding against the query embedding, sort descending, truncate
to `options.limit || 10`.  A dimension mismatch inside `cosineSimilarity`
would throw in the source, hence the `Except`. -/
def searchSemantic (sq : ℚ → ℚ) (db : List Belief) (q : String) (opts : SearchOptions) :
    Except String (List BeliefSearchResult) := do
  let queryEmbedding := generateEmbedding sq q 384
  let beliefs := getActive db { opts with limit := none }
  let withEmbedding := beliefs.filter (fun b => b.embedding.isSome)
  let scored ← withEmbedding.mapM (fun b => do
    let s ← cosineSimilarity sq queryEmbedding (b.embedding.getD [])
    pure { belief := b, score := s, matchType := MatchType.semantic })
  let sorted := scored.mergeSort scoreLE
  pure (sorted.take (defaultLimit opts.limit))

/-- The keyword positional map of `searchHybrid`:
`new Map(keywordResults.map((b, i) => [b.id, { belief: b, score: 1 - i * 0.1 }]))`,
built by insertion so that a later duplicate key would overwrite an earlier
one. -/
def kmapInsert (m : String → Option ℚ) (p : Nat × Belief) : String → Option ℚ :=
  fun key => if key = p.2.id then some (1 - (p.1 : ℚ) / 10) else m key

def keywordScoreMap (kw : List Belief) : String → Option ℚ :=
  kw.enum.foldl kmapInsert (fun _ => none)

/-- The first combination loop of `searchHybrid`: iterate the semantic
results, skip already-seen identifiers, average with the keyword positional
score when the belief also matched by keyword. -/
def hybridSemStep (kmap : String → Option ℚ)
    (st : List String × List BeliefSearchResult) (r : BeliefSearchResult) :
    List String × List BeliefSearchResult :=
  if st.1.contains r.belief.id then st
  else
    let seen := r.belief.id :: st.1
    match kmap r.belief.id with
    | some ks =>
      (seen, st.2 ++ [{ belief := r.belief, score := (r.score + ks) / 2,
                        matchType := MatchType.hybrid }])
    | none =>
      (seen, st.2 ++ [{ belief := r.belief, score := r.score,
                        matchType := MatchType.semantic }])

/-- The second combination loop of `searchHybrid`: append keyword-only hits
with the fixed score 0.5. -/
def hybridKeywordStep (st : List String × List BeliefSearchResult) (b : Belief) :
    List String × List BeliefSearchResult :=
  if st.1.contains b.id then st
  else (b.id :: st.1,
        st.2 ++ [{ belief := b, score := 1 / 2, matchType := MatchType.keyword }])

/-- `searchHybrid` (belief-store, lines 256–299): keyword and semantic
searches with limit `(options.limit || 10) * 2`, the two deduplicating
combination loops, a descending sort, and truncation to
`options.limit || 10`. -/
def searchHybrid (sq : ℚ → ℚ) (ftsRanked : List Belief) (db : List Belief)
    (q : String) (opts : SearchOptions) : Except String (List BeliefSearchResult) := do
  let keywordResults :=
    searchKeyword ftsRanked { opts with limit := some (defaultLimit opts.limit * 2) }
  let semanticResults ←
    searchSemantic sq db q { opts with limit := some (defaultLimit opts.limit * 2) }
  let kmap := keywordScoreMap keywordResults
  let st1 := semanticResults.foldl (hybridSemStep kmap) ([], [])
  let st2 := keywordResults.foldl hybridKeywordStep st1
  pure ((st2.2.mergeSort scoreLE).take (defaultLimit opts.limit))

/-! ## The spec's wording of the hybrid algorithm (for the refinement claim)

The following definitions restate spec §4.3's five hybrid-search steps in the
spec's own terms, to be compared with `searchHybrid` above. -/

/-- Spec §4.3 step 2 wording: the i-th keyword hit (0-indexed) receives
positional score `1 - i * 0.1`; a belief's positional score is looked up by
its identifier. -/
def keywordPositionalScore (kw : List Belief) (key : String) : Option ℚ :=
  (kw.enum.find? (fun p => decide (p.2.id = key))).map (fun p => 1 - (p.1 : ℚ) / 10)

/-- Spec §4.3 step 3 wording: iterate semantic results in score order,
deduplicate by identifier, tag "hybrid" with the averaged score when the
belief also appears in the keyword list, else keep the semantic score. -/
def specSemStep (kw : List Belief)
    (st : List String × List BeliefSearchResult) (r : BeliefSearchResult) :
    List String × List BeliefSearchResult :=
  if st.1.contains r.belief.id then st
  else
    let seen := r.belief.id :: st.1
    match keywordPositionalScore kw r.belief.id with
    | some ks =>
      (seen, st.2 ++ [{ belief := r.belief, score := (r.score + ks) / 2,
                        matchType := MatchType.hybrid }])
    | none =>
      (seen, st.2 ++ [{ belief := r.belief, score := r.score,
                        matchType := MatchType.semantic }])

/-- Spec §4.3 steps 1–5 as written: doubled limits, positional keyword
scores, semantic-first deduplicating merge, keyword-only hits at 0.5, then
sort descending and truncate to the originally requested limit. -/
def searchHybridSpec (sq : ℚ → ℚ) (ftsRanked : List Belief) (db : List Belief)
    (q : String) (opts : SearchOptions) : Except String (List BeliefSearchResult) := do
  let kw := searchKeyword ftsRanked { opts with limit := some (2 * defaultLimit opts.limit) }
  let sem ← searchSemantic sq db q { opts with limit := some (2 * defaultLimit opts.limit) }
  let st1 := sem.foldl (specSemStep kw) ([], [])
  let st2 := kw.foldl hybridKeywordStep st1
  pure ((st2.2.mergeSort scoreLE).take (defaultLimit opts.limit))

/-! ## The repository's mutating operations as one type (for the
invalidation-is-terminal claim) -/

/-- Every mutating operation the repository exposes. -/
inductive RepoOp where
  | createOp (newId : String) (nb : NewBelief)
  | updateOp (id : String) (c : BeliefChanges)
  | invalidateOp (id : String) (reason : String) (now : Int)
  | incSupporting (id : String)
  | incContradicting (id : String)
  | adjustOp (ids : List String) (delta : ℚ)
  | decayOp (now : Int)

/-- Run one mutating repository operation against the belief table. -/
def applyOp (cfg : EngineConfig) (sq : ℚ → ℚ) (op : RepoOp) (db : List Belief) :
    List Belief :=
  match op with
  | RepoOp.createOp newId nb => (create sq newId nb db).2
  | RepoOp.updateOp id c => (update db id c).2
  | RepoOp.invalidateOp id reason now => (invalidate db id reason now).2
  | RepoOp.incSupporting id => incrementSupporting db id
  | RepoOp.incContradicting id => incrementContradicting db id
  | RepoOp.adjustOp ids delta => adjustConfidence cfg.minConfidenceFloor ids delta db
  | RepoOp.decayOp now =>
    (applyConfidenceDecay cfg.minConfidenceFloor cfg.confidenceDecayPerDay now db).2

/-! ## Helper lemmas -/

theorem belief_confidence_restore (b : Belief) (c : ℚ) :
    ({ { b with confidence := c } with confidence := b.confidence } : Belief) = b := by
  cases b; rfl

/-- The concrete decay scenario row of the spec: confidence 0.9, last
evaluated at epoch 0 (so exactly 10 days before `now = 10 * dayInMs`). -/
def decayScenarioBelief : Belief :=
  { id := "scenario", text := "t", domain := BeliefDomain.code_pattern,
    confidence := 9 / 10, evidence_ids := [], supporting_count := 0,
    contradicting_count := 0, derived_at := 0, last_evaluated := 0,
    supersedes_id := none, invalidated_at := none, invalidation_reason := none,
    importance := 1, tags := [], embedding := none }

/-- C2: applyDecay touches exactly the active beliefs whose confidence
exceeds the floor, setting confidence to
`max(floor, confidence - decayPerDay * elapsedDays)` with elapsedDays the
storage engine's integer division `(now - last_evaluated) / dayInMs`; other
rows are untouched; the returned count is the number of rows the UPDATE
processed; and on a belief with confidence 0.9 last evaluated exactly 10
days ago with decayPerDay 0.01 the resulting confidence is 0.8. -/
theorem c2_applyDecay_formula (floor d : ℚ) (now : Int) (db : List Belief) :
    (applyConfidenceDecay floor d now db).1
        = db.countP (fun b => b.invalidated_at.isNone && decide (floor < b.confidence))
      ∧ (applyConfidenceDecay floor d now db).2.length = db.length
      ∧ (∀ i : Nat, ∀ b : Belief, db[i]? = some b →
          ((b.invalidated_at = none ∧ floor < b.confidence →
            (applyConfidenceDecay floor d now db).2[i]? =
              some { b with confidence := decayedConfidence floor d now b })
          ∧ (¬(b.invalidated_at = none ∧ floor < b.confidence) →
            (applyConfidenceDecay floor d now db).2[i]? = some b)))
      ∧ ((applyConfidenceDecay (3 / 10) (1 / 100) (10 * dayInMs)
            [decayScenarioBelief]).2[0]?).map Belief.confidence = some (4 / 5) := by
  refine ⟨rfl, by simp [applyConfidenceDecay], fun i b h => ⟨fun hb => ?_, fun hb => ?_⟩, ?_⟩
  · have ht : decayTouched floor b = true := by
      simp [decayTouched, hb.1, hb.2]
    simp [applyConfidenceDecay, List.getElem?_map, h, ht]
  · have ht : decayTouched floor b = false := by
      rcases hd : decayTouched floor b with _ | _
      · rfl
      · exfalso
        apply hb
        simpa [decayTouched] using hd
    simp [applyConfidenceDecay, List.getElem?_map, h, ht]
  · have ht : decayTouched (3 / 10) decayScenarioBelief = true := by
      norm_num [decayTouched, decayScenarioBelief]
    have hval : decayedConfidence (3 / 10) (1 / 100) (10 * dayInMs) decayScenarioBelief
        = 4 / 5 := by
      have hdays : elapsedDays (10 * dayInMs) decayScenarioBelief.last_evaluated = 10 := by
        decide
      unfold decayedConfidence
      rw [hdays]
      have hle : (3 : ℚ) / 10 ≤ decayScenarioBelief.confidence - 1 / 100 * ((10 : Int) : ℚ) := by
        norm_num [decayScenarioBelief]
      rw [max_eq_right hle]
      norm_num [decayScenarioBelief]
    simp only [applyConfidenceDecay, List.map_cons, List.map_nil, ht, if_true,
      List.getElem?_cons_zero, Option.map_some]
    exact congrArg some hval

/-- C9: the decay sweep touches only the confidence field (in particular it
never advances last_evaluated), so a second sweep at the same clock time
applies the full elapsed-time decay again — consecutive sweeps compound. -/
theorem c9_decay_frame_and_compounding (floor d : ℚ) (now : Int) (db : List Belief) :
    (∀ i : Nat, ∀ b b' : Belief, db[i]? = some b →
        (applyConfidenceDecay floor d now db).2[i]? = some b' →
        b'.last_evaluated = b.last_evaluated
          ∧ ({ b' with confidence := b.confidence } : Belief) = b)
    ∧ (∀ i : Nat, ∀ b : Belief, db[i]? = some b →
        b.invalidated_at = none →
        0 ≤ d * ((elapsedDays now b.last_evaluated : Int) : ℚ) →
        floor < b.confidence - d * ((elapsedDays now b.last_evaluated : Int) : ℚ)
              - d * ((elapsedDays now b.last_evaluated : Int) : ℚ) →
        ((applyConfidenceDecay floor d now
            (applyConfidenceDecay floor d now db).2).2[i]?).map Belief.confidence =
          some (b.confidence - d * ((elapsedDays now b.last_evaluated : Int) : ℚ)
              - d * ((elapsedDays now b.last_evaluated : Int) : ℚ))) := by
  have hmap : ∀ (db' : List Belief) (i : Nat),
      (applyConfidenceDecay floor d now db').2[i]?
        = Option.map (fun b => if decayTouched floor b then
            { b with confidence := decayedConfidence floor d now b } else b) db'[i]? := by
    intro db' i
    simp only [applyConfidenceDecay]
    exact List.getElem?_map ..
  constructor
  · intro i b b' h h'
    rw [hmap, h] at h'
    simp only [Option.map_some', Option.some_inj] at h'
    subst h'
    by_cases ht : decayTouched floor b = true
    · simp [ht]
    · simp only [Bool.not_eq_true] at ht
      simp [ht]
  · intro i b h hinv h0 hgap
    set k : ℚ := d * ((elapsedDays now b.last_evaluated : Int) : ℚ) with hk
    have hconf1 : floor < b.confidence - k := by linarith
    have hconf0 : floor < b.confidence := by linarith
    have ht : decayTouched floor b = true := by
      simp [decayTouched, hinv, hconf0]
    have hdc : decayedConfidence floor d now b = b.confidence - k := by
      unfold decayedConfidence
      rw [← hk, max_eq_right (le_of_lt hconf1)]
    have h1 : (applyConfidenceDecay floor d now db).2[i]?
        = some { b with confidence := b.confidence - k } := by
      rw [hmap, h]
      simp only [Option.map_some', ht, if_true, hdc]
    have ht1 : decayTouched floor { b with confidence := b.confidence - k } = true := by
      simp [decayTouched, hinv, hconf1]
    have hdc1 : decayedConfidence floor d now { b with confidence := b.confidence - k }
        = b.confidence - k - k := by
      unfold decayedConfidence
      show max floor (b.confidence - k - d * ((elapsedDays now b.last_evaluated : Int) : ℚ)) = _
      rw [← hk, max_eq_right (by linarith)]
    rw [hmap, h1]
    simp only [Option.map_some', ht1, if_true, hdc1]

/-- C5: invalidate sets the invalidation fields only on a currently active
row and reports whether a transition occurred (a second call on the same id
reports false); and no repository operation ever changes invalidated_at or
invalidation_reason once they are set (in particular update cannot). -/
theorem c5_invalidation_terminal (db : List Belief) (id reason : String) (now : Int)
    (cfg : EngineConfig) (sq : ℚ → ℚ) :
    (∀ i : Nat, ∀ b : Belief, db[i]? = some b →
        ((b.id = id ∧ b.invalidated_at = none →
            (invalidate db id reason now).2[i]? =
              some { b with invalidated_at := some now, invalidation_reason := some reason })
          ∧ (¬(b.id = id ∧ b.invalidated_at = none) →
            (invalidate db id reason now).2[i]? = some b)))
    ∧ ((invalidate db id reason now).1 = true ↔
        ∃ b ∈ db, b.id = id ∧ b.invalidated_at = none)
    ∧ (∀ reason2 : String, ∀ now2 : Int,
        (invalidate (invalidate db id reason now).2 id reason2 now2).1 = false)
    ∧ (∀ op : RepoOp, ∀ i : Nat, ∀ b : Belief, db[i]? = some b →
        ∀ t : Int, b.invalidated_at = some t →
        ((applyOp cfg sq op db)[i]?).map Belief.invalidated_at = some (some t)
          ∧ ((applyOp cfg sq op db)[i]?).map Belief.invalidation_reason
              = some b.invalidation_reason) := by
  refine ⟨fun i b h => ⟨fun hb => ?_, fun hb => ?_⟩, ?_, ?_, ?_⟩
  · have ht : invalidateTouched id b = true := by
      simp [invalidateTouched, hb.1, hb.2]
    simp only [invalidate, List.getElem?_map, h, Option.map_some', ht, if_true]
  · have ht : invalidateTouched id b = false := by
      rcases hx : invalidateTouched id b with _ | _
      · rfl
      · exact absurd (by simp [invalidateTouched] at hx; exact hx) hb
    simp [invalidate, List.getElem?_map, h, ht]
  · simp [invalidate, List.countP_pos_iff, invalidateTouched,
      Option.isNone_iff_eq_none]
  · intro reason2 now2
    have hz : ((invalidate db id reason now).2).countP (invalidateTouched id) = 0 := by
      simp only [invalidate, List.countP_map]
      rw [List.countP_eq_zero]
      intro x hx
      simp only [Function.comp_apply]
      rcases hta : invalidateTouched id x with _ | _
      · simp [hta]
      · simp [invalidateTouched]
    have hfst : (invalidate ((invalidate db id reason now).2) id reason2 now2).1
        = decide (0 < ((invalidate db id reason now).2).countP (invalidateTouched id)) := rfl
    rw [hfst, hz]
    rfl
  · intro op i b h t hb
    cases op with
    | createOp newId nb =>
      have hlen : i < db.length := (List.getElem?_eq_some.mp h).1
      simp [applyOp, create, List.getElem?_append, hlen, h, hb]
    | updateOp id2 c =>
      rcases hg : getById db id2 with _ | ex
      · simp [applyOp, update, hg, h, hb]
      · rcases he : c.isEmpty with _ | _
        · by_cases hid : b.id = id2 <;>
            simp [applyOp, update, hg, he, List.getElem?_map, h, hb, applyChanges, hid]
        · simp [applyOp, update, hg, he, h, hb]
    | invalidateOp id2 reason2 now2 =>
      have ht : invalidateTouched id2 b = false := by
        simp [invalidateTouched, hb]
      simp [applyOp, invalidate, List.getElem?_map, h, ht, hb]
    | incSupporting id2 =>
      by_cases hid : b.id = id2 <;>
        simp [applyOp, incrementSupporting, List.getElem?_map, h, hb, hid]
    | incContradicting id2 =>
      by_cases hid : b.id = id2 <;>
        simp [applyOp, incrementContradicting, List.getElem?_map, h, hb, hid]
    | adjustOp ids delta =>
      rcases hi : ids.isEmpty with _ | _
      · by_cases hid : b.id ∈ ids <;>
          simp [applyOp, adjustConfidence, hi, List.getElem?_map, h, hb, hid]
      · simp [applyOp, adjustConfidence, hi, h, hb]
    | decayOp now2 =>
      have ht : decayTouched cfg.minConfidenceFloor b = false := by
        simp [decayTouched, hb]
      simp [applyOp, applyConfidenceDecay, List.getElem?_map, h, ht, hb]

/-- A row read by position belongs to the table. -/
theorem mem_of_getElemOpt {l : List Belief} {i : Nat} {b : Belief}
    (h : l[i]? = some b) : b ∈ l := by
  obtain ⟨hl, he⟩ := List.getElem?_eq_some.mp h
  exact he ▸ List.getElem_mem hl

/-- A new belief carrying confidence 0.1, below the default floor 0.3 (the
supplied embedding keeps `create` from generating one). -/
def lowConfidenceInput : NewBelief :=
  { text := "low", domain := BeliefDomain.decision, confidence := 1 / 10,
    evidence_ids := [], supporting_count := 0, contradicting_count := 0,
    derived_at := 0, last_evaluated := 0, supersedes_id := none,
    invalidated_at := none, invalidation_reason := none, importance := 1,
    tags := [], embedding := some [1] }

/-- Counterexample to C1 as stated: `create` persists the caller-supplied
confidence without clamping, so a belief created with confidence 0.1 is
stored below the default floor 0.3. -/
theorem c1_create_below_floor_counterexample :
    ((create (fun x => x) "b1" lowConfidenceInput []).2[0]?).map Belief.confidence
        = some (1 / 10)
      ∧ (1 / 10 : ℚ) < defaultEngineConfig.minConfidenceFloor := by
  constructor
  · rfl
  · norm_num [defaultEngineConfig]

/-- C1 amended: `adjustConfidence` clamps every targeted row into
`[floor, 1.0]` (for any floor ≤ 1), and `applyDecay` never writes a
confidence below the floor; `create` and `update`, however, persist the
caller-supplied confidence unchanged, with no clamping. -/
theorem c1_confidence_clamping_amended (floor delta d : ℚ) (now : Int)
    (ids : List String) (db : List Belief) (hf : floor ≤ 1) :
    (∀ b' ∈ adjustConfidence floor ids delta db,
        b'.id ∈ ids → floor ≤ b'.confidence ∧ b'.confidence ≤ 1)
    ∧ (∀ i : Nat, ∀ b b' : Belief, db[i]? = some b →
        (applyConfidenceDecay floor d now db).2[i]? = some b' →
        b'.confidence = b.confidence ∨ floor ≤ b'.confidence)
    ∧ (∀ sq : ℚ → ℚ, ∀ newId : String, ∀ nb : NewBelief,
        ((create sq newId nb db).1).confidence = nb.confidence
          ∧ ∀ b' ∈ (create sq newId nb db).2, b' ∈ db ∨ b'.confidence = nb.confidence)
    ∧ (∀ id : String, ∀ c : BeliefChanges, ∀ x : ℚ, c.confidence = some x →
        ∀ i : Nat, ∀ b : Belief, db[i]? = some b → b.id = id →
        ((update db id c).2[i]?).map Belief.confidence = some x) := by
  refine ⟨?_, ?_, ?_, ?_⟩
  · intro b' hb' hid
    rcases hie : ids.isEmpty with _ | _
    · rw [adjustConfidence, hie] at hb'
      simp only [Bool.false_eq_true, if_false, List.mem_map] at hb'
      obtain ⟨a, ha, rfl⟩ := hb'
      by_cases hca : a.id ∈ ids
      · have hcb : ids.contains a.id = true := by simpa using hca
        simp only [hcb, if_true]
        exact ⟨le_max_left _ _, max_le hf (min_le_left _ _)⟩
      · have hcb : ¬(ids.contains a.id = true) := by simpa using hca
        rw [if_neg hcb] at hid ⊢
        exact absurd hid hca
    · rw [List.isEmpty_iff] at hie
      subst hie
      exact absurd hid (by simp)
  · intro i b b' h h'
    simp only [applyConfidenceDecay, List.getElem?_map, h, Option.map_some',
      Option.some_inj] at h'
    subst h'
    rcases ht : decayTouched floor b with _ | _
    · simp [ht]
    · right
      simp only [ht, if_true]
      exact le_max_left _ _
  · intro sq newId nb
    refine ⟨rfl, ?_⟩
    intro b' hb'
    simp only [create, List.mem_append, List.mem_singleton] at hb'
    rcases hb' with hmem | hrow
    · exact Or.inl hmem
    · right
      rw [hrow]
  · intro id c x hc i b h hbid
    have hmem : b ∈ db := mem_of_getElemOpt h
    rcases hg : getById db id with _ | ex
    · exfalso
      rw [getById, List.find?_eq_none] at hg
      exact absurd (by simp [hbid]) (hg b hmem)
    · have hne : c.isEmpty = false := by
        simp [BeliefChanges.isEmpty, hc]
      simp only [update, hg, hne, Bool.false_eq_true, if_false,
        List.getElem?_map, h, Option.map_some', hbid, if_pos, applyChanges, hc,
        Option.getD_some]

/-- C10: zero-valued filters are treated as absent by the truthiness guards:
minConfidence 0 applies no confidence filter in getActive/searchKeyword,
limit 0 leaves getActive/searchKeyword untruncated, and limit 0 falls back
to the default limit 10 in searchSemantic/searchHybrid. -/
theorem c10_falsy_zero_options (db fts : List Belief) (q : String)
    (sq : ℚ → ℚ) (opts : SearchOptions) :
    getActive db { opts with minConfidence := some 0 }
        = getActive db { opts with minConfidence := none }
      ∧ getActive db { opts with limit := some 0 }
        = getActive db { opts with limit := none }
      ∧ searchKeyword fts { opts with minConfidence := some 0 }
        = searchKeyword fts { opts with minConfidence := none }
      ∧ searchKeyword fts { opts with limit := some 0 }
        = searchKeyword fts { opts with limit := none }
      ∧ searchSemantic sq db q { opts with limit := some 0 }
        = searchSemantic sq db q { opts with limit := some 10 }
      ∧ searchHybrid sq fts db q { opts with limit := some 0 }
        = searchHybrid sq fts db q { opts with limit := some 10 } :=
  ⟨rfl, rfl, rfl, rfl, rfl, rfl⟩

/-- The `ORDER BY importance DESC, confidence DESC` comparison is
transitive. -/
theorem impConfLE_trans : ∀ a b c : Belief,
    impConfLE a b = true → impConfLE b c = true → impConfLE a c = true := by
  intro a b c hab hbc
  simp only [impConfLE, Bool.or_eq_true, Bool.and_eq_true, decide_eq_true_eq] at *
  rcases hab with h1 | ⟨h1, h2⟩ <;> rcases hbc with h3 | ⟨h3, h4⟩
  · exact Or.inl (lt_trans h3 h1)
  · exact Or.inl (h3 ▸ h1)
  · exact Or.inl (by rw [h1]; exact h3)
  · exact Or.inr ⟨h1.trans h3, le_trans h4 h2⟩

/-- The `ORDER BY importance DESC, confidence DESC` comparison is total. -/
theorem impConfLE_total : ∀ a b : Belief, (impConfLE a b || impConfLE b a) = true := by
  intro a b
  simp only [impConfLE, Bool.or_eq_true, Bool.and_eq_true, decide_eq_true_eq]
  rcases lt_trichotomy b.importance a.importance with h | h | h
  · exact Or.inl (Or.inl h)
  · rcases le_total b.confidence a.confidence with hc | hc
    · exact Or.inl (Or.inr ⟨h.symm, hc⟩)
    · exact Or.inr (Or.inr ⟨h, hc⟩)
  · exact Or.inr (Or.inl h)

/-- C8: getActive never returns an invalidated belief, its output is ordered
by importance descending then confidence descending, and a (truthy) supplied
limit truncates that ordered list rather than sampling from it. -/
theorem c8_getActive_props (db : List Belief) (opts : SearchOptions)
    (l : Nat) (hl : l ≠ 0) :
    (∀ b ∈ getActive db opts, b.invalidated_at = none)
    ∧ (getActive db opts).Pairwise (fun a b =>
        b.importance < a.importance
          ∨ (a.importance = b.importance ∧ b.confidence ≤ a.confidence))
    ∧ getActive db { opts with limit := some l }
        = (getActive db { opts with limit := none }).take l := by
  refine ⟨?_, ?_, ?_⟩
  · intro b hb
    have hmem : b ∈ (db.filter (getActiveFilter opts)).mergeSort impConfLE := by
      unfold getActive at hb
      rcases ho : truthyLimit opts.limit with _ | l2 <;> rw [ho] at hb
      · exact hb
      · exact List.mem_of_mem_take hb
    have hmem2 : b ∈ db.filter (getActiveFilter opts) :=
      (List.mergeSort_perm _ _).subset hmem
    have hfil := (List.mem_filter.mp hmem2).2
    simp only [getActiveFilter, Bool.and_eq_true, Option.isNone_iff_eq_none] at hfil
    exact hfil.1.1
  · have hs := List.sorted_mergeSort impConfLE_trans impConfLE_total
      (db.filter (getActiveFilter opts))
    have hp : (getActive db opts).Pairwise (fun a b => impConfLE a b = true) := by
      unfold getActive
      rcases ho : truthyLimit opts.limit with _ | l2
      · exact hs
      · exact List.Pairwise.sublist (List.take_sublist _ _) hs
    refine hp.imp ?_
    intro a b hab
    simpa [impConfLE, decide_eq_true_eq] using hab
  · unfold getActive
    have ho : truthyLimit (some l) = some l := by
      simp [truthyLimit, hl]
    have ho2 : truthyLimit (none : Option Nat) = none := rfl
    rw [show ({ opts with limit := some l } : SearchOptions).limit = some l from rfl,
      show ({ opts with limit := none } : SearchOptions).limit = none from rfl, ho, ho2]
    rfl

/-- State invariant of the two hybrid combination loops: the collected
results carry pairwise-distinct belief identifiers, each already marked as
seen. -/
def HybridInv (st : List String × List BeliefSearchResult) : Prop :=
  (st.2.map (fun r => r.belief.id)).Nodup
    ∧ ∀ s ∈ st.2.map (fun r => r.belief.id), s ∈ st.1

/-- Pushing an unseen identifier (the common shape of both loops) keeps the
hybrid invariant. -/
theorem hybridInv_extend (st : List String × List BeliefSearchResult)
    (res : BeliefSearchResult) (h : HybridInv st)
    (hns : st.1.contains res.belief.id = false) :
    HybridInv (res.belief.id :: st.1, st.2 ++ [res]) := by
  obtain ⟨hnd, hsub⟩ := h
  have hnot : res.belief.id ∉ st.1 := by simpa using hns
  constructor
  · rw [List.map_append]
    refine List.nodup_append.mpr ⟨hnd, by simp, ?_⟩
    intro x hx hy
    simp only [List.map_cons, List.map_nil, List.mem_singleton] at hy
    subst hy
    exact hnot (hsub _ hx)
  · intro s hs
    rw [List.map_append] at hs
    rcases List.mem_append.mp hs with h1 | h1
    · exact List.mem_cons_of_mem _ (hsub _ h1)
    · simp only [List.map_cons, List.map_nil, List.mem_singleton] at h1
      subst h1
      exact List.mem_cons_self _ _

/-- The semantic combination loop keeps the hybrid invariant. -/
theorem hybridSemStep_inv (kmap : String → Option ℚ)
    (st : List String × List BeliefSearchResult) (r : BeliefSearchResult)
    (h : HybridInv st) : HybridInv (hybridSemStep kmap st r) := by
  unfold hybridSemStep
  rcases hc : st.1.contains r.belief.id with _ | _
  · rcases hk : kmap r.belief.id with _ | ks
    · simp only [hc, Bool.false_eq_true, if_false, hk]
      exact hybridInv_extend st _ h hc
    · simp only [hc, Bool.false_eq_true, if_false, hk]
      exact hybridInv_extend st _ h hc
  · simp only [hc, if_true]
    exact h

/-- The keyword combination loop keeps the hybrid invariant. -/
theorem hybridKeywordStep_inv (st : List String × List BeliefSearchResult)
    (b : Belief) (h : HybridInv st) : HybridInv (hybridKeywordStep st b) := by
  unfold hybridKeywordStep
  rcases hc : st.1.contains b.id with _ | _
  · simp only [hc, Bool.false_eq_true, if_false]
    exact hybridInv_extend st { belief := b, score := 1 / 2, matchType := MatchType.keyword } h hc
  · simp only [hc, if_true]
    exact h

/-- A fold whose step keeps the hybrid invariant keeps it. -/
theorem foldl_hybridInv {β : Type}
    (step : (List String × List BeliefSearchResult) → β →
      (List String × List BeliefSearchResult))
    (hstep : ∀ st x, HybridInv st → HybridInv (step st x)) :
    ∀ (xs : List β) (st : List String × List BeliefSearchResult),
      HybridInv st → HybridInv (xs.foldl step st) := by
  intro xs
  induction xs with
  | nil => intro st h; exact h
  | cons x xs ih => intro st h; exact ih _ (hstep st x h)

/-- Positional score extracted from a lookup result, with a fallback. -/
def posScoreOf (found : Option (Nat × Belief)) (fallback : Option ℚ) : Option ℚ :=
  match found with
  | some p => some (1 - (p.1 : ℚ) / 10)
  | none => fallback

theorem posScoreOf_none (x : Option ℚ) : posScoreOf none x = x := rfl

theorem posScoreOf_some (p : Nat × Belief) (x : Option ℚ) :
    posScoreOf (some p) x = some (1 - (p.1 : ℚ) / 10) := rfl

/-- When the key occurs nowhere in the keyword list, the positional lookup
finds nothing. -/
theorem enumFrom_find?_eq_none (kw : List Belief) (key : String)
    (hkey : key ∉ kw.map (fun b => b.id)) :
    ∀ n : Nat, (kw.enumFrom n).find? (fun p => decide (p.2.id = key)) = none := by
  induction kw with
  | nil => intro n; rfl
  | cons b rest ih =>
    intro n
    simp only [List.map_cons, List.mem_cons, not_or] at hkey
    rw [List.enumFrom_cons,
      List.find?_cons_of_neg _
        (by simp only [decide_eq_true_eq]; exact fun h => hkey.1 h.symm),
      ih hkey.2]

/-- The insertion-built keyword map agrees with the first-match positional
lookup on a duplicate-free keyword list (generalized over the starting index
and the initial map). -/
theorem keywordScoreMap_foldl_eq (kw : List Belief) :
    ∀ (n : Nat) (m : String → Option ℚ) (key : String),
      (kw.map (fun b => b.id)).Nodup →
      ((kw.enumFrom n).foldl kmapInsert m) key
        = posScoreOf ((kw.enumFrom n).find? (fun p => decide (p.2.id = key))) (m key) := by
  induction kw with
  | nil => intro n m key hnd; rfl
  | cons b rest ih =>
    intro n m key hnd
    simp only [List.map_cons, List.nodup_cons] at hnd
    rw [List.enumFrom_cons, List.foldl_cons, ih (n + 1) (kmapInsert m (n, b)) key hnd.2]
    by_cases hkb : key = b.id
    · rw [List.find?_cons_of_pos _ (by simp only [decide_eq_true_eq]; exact hkb.symm),
        enumFrom_find?_eq_none rest key (by rw [hkb]; exact hnd.1) (n + 1),
        posScoreOf_none, posScoreOf_some]
      unfold kmapInsert
      rw [if_pos hkb]
    · rw [List.find?_cons_of_neg _
        (by simp only [decide_eq_true_eq]; exact fun h => hkb h.symm)]
      cases hf : (rest.enumFrom (n + 1)).find? (fun p => decide (p.2.id = key)) with
      | none =>
        rw [posScoreOf_none, posScoreOf_none]
        unfold kmapInsert
        rw [if_neg hkb]
      | some p => rw [posScoreOf_some, posScoreOf_some]

/-- On a duplicate-free keyword list, the source's Map-based positional score
equals the spec's positional-score lookup. -/
theorem keywordScoreMap_eq_positional (kw : List Belief)
    (hnd : (kw.map (fun b => b.id)).Nodup) (key : String) :
    keywordScoreMap kw key = keywordPositionalScore kw key := by
  unfold keywordScoreMap keywordPositionalScore
  rw [show kw.enum = kw.enumFrom 0 from rfl,
    keywordScoreMap_foldl_eq kw 0 (fun _ => none) key hnd]
  cases (kw.enumFrom 0).find? (fun p => decide (p.2.id = key)) <;> rfl

/-- With a duplicate-free keyword list the code's semantic combination step
is the spec's. -/
theorem hybridSemStep_eq_spec (kw : List Belief)
    (hnd : (kw.map (fun b => b.id)).Nodup) :
    hybridSemStep (keywordScoreMap kw) = specSemStep kw := by
  funext st r
  unfold hybridSemStep specSemStep
  rw [keywordScoreMap_eq_positional kw hnd]

/-- searchKeyword preserves duplicate-freedom of identifiers: it only
filters and truncates the ranked match list. -/
theorem searchKeyword_ids_nodup (fts : List Belief) (opts : SearchOptions)
    (h : (fts.map (fun b => b.id)).Nodup) :
    ((searchKeyword fts opts).map (fun b => b.id)).Nodup := by
  have hsub : (searchKeyword fts opts).Sublist fts := by
    unfold searchKeyword
    rcases truthyLimit opts.limit with _ | l
    · exact List.filter_sublist _
    · exact (List.take_sublist _ _).trans (List.filter_sublist _)
  exact List.Nodup.sublist (hsub.map _) h

/-- C4: on a keyword index whose rows carry distinct identifiers (beliefs
are rows of a keyed table), the hybrid search is exactly the spec's
five-step algorithm. -/
theorem c4_hybrid_follows_spec (sq : ℚ → ℚ) (fts db : List Belief)
    (q : String) (opts : SearchOptions)
    (hfts : (fts.map (fun b => b.id)).Nodup) :
    searchHybrid sq fts db q opts = searchHybridSpec sq fts db q opts := by
  have hnd : ((searchKeyword fts
      { opts with limit := some (defaultLimit opts.limit * 2) }).map
        (fun b => b.id)).Nodup :=
    searchKeyword_ids_nodup _ _ hfts
  have hfun := hybridSemStep_eq_spec _ hnd
  simp only [searchHybrid, searchHybridSpec, Nat.mul_comm 2 (defaultLimit opts.limit), hfun]

/-! ## Embedding norm lemmas -/

theorem foldl_add_sq (l : List ℚ) : ∀ a : ℚ,
    l.foldl (fun sum x => sum + x * x) a = a + (l.map (fun x => x * x)).sum := by
  induction l with
  | nil => intro a; simp
  | cons x xs ih =>
    intro a
    simp only [List.foldl_cons, List.map_cons, List.sum_cons, ih]
    ring

theorem sqNorm_eq_sum_map (l : List ℚ) : sqNorm l = (l.map (fun x => x * x)).sum := by
  unfold sqNorm
  rw [foldl_add_sq]
  ring

theorem zip_self_dot (v : List ℚ) :
    ((v.zip v).map (fun p => p.1 * p.2)).sum = (v.map (fun x => x * x)).sum := by
  induction v with
  | nil => rfl
  | cons x xs ih => simp [ih]

/-- C7: cosineSimilarity fails with the dimension-mismatch error whenever the
vectors differ in length, returns 0 when either vector has zero norm, and
returns exactly 1 on any vector of nonzero norm compared with itself (for a
square root exact at the values used). -/
theorem c7_cosineSimilarity_props (sq : ℚ → ℚ) (a b v : List ℚ) :
    (a.length ≠ b.length →
      cosineSimilarity sq a b = Except.error "Vectors must have the same length")
    ∧ (a.length = b.length → sq 0 = 0 → (sqNorm a = 0 ∨ sqNorm b = 0) →
      cosineSimilarity sq a b = Except.ok 0)
    ∧ (sqNorm v ≠ 0 → sq (sqNorm v) * sq (sqNorm v) = sqNorm v →
      cosineSimilarity sq v v = Except.ok 1) := by
  refine ⟨?_, ?_, ?_⟩
  · intro h
    unfold cosineSimilarity
    rw [if_pos h]
  · intro hlen hs0 hz
    unfold cosineSimilarity
    rw [if_neg (by simp [hlen])]
    rcases hz with hz | hz
    · rw [hz, hs0, zero_mul, if_pos rfl]
    · rw [hz, hs0, mul_zero, if_pos rfl]
  · intro hv hm2
    have hdot : ((v.zip v).map (fun p => p.1 * p.2)).sum = sqNorm v := by
      rw [zip_self_dot, ← sqNorm_eq_sum_map]
    unfold cosineSimilarity
    rw [if_neg (by simp)]
    rw [hm2, if_neg hv, hdot, div_self hv]

theorem addAt_length (v : List ℚ) (i : Nat) (x : ℚ) : (addAt v i x).length = v.length :=
  List.length_set ..

theorem embStep_length (dims : Nat) (chars : List Char) (acc : List ℚ) (p : Nat × Char) :
    (embStep dims chars acc p).length = acc.length := by
  simp only [embStep]
  split <;> split <;> simp [addAt_length]

theorem foldl_embStep_length (dims : Nat) (chars : List Char) :
    ∀ (ps : List (Nat × Char)) (acc : List ℚ),
      (ps.foldl (embStep dims chars) acc).length = acc.length := by
  intro ps
  induction ps with
  | nil => intro acc; rfl
  | cons p ps ih =>
    intro acc
    rw [List.foldl_cons, ih, embStep_length]

theorem rawEmbedding_length (t : String) (dims : Nat) :
    (rawEmbedding t dims).length = dims := by
  unfold rawEmbedding
  rw [foldl_embStep_length]
  exact List.length_replicate ..

theorem addAt_getD_mono (v : List ℚ) (i j : Nat) (x : ℚ) (hx : 0 ≤ x) :
    v.getD j 0 ≤ (addAt v i x).getD j 0 := by
  unfold addAt
  rw [List.getD_eq_getElem?_getD, List.getD_eq_getElem?_getD, List.getElem?_set]
  by_cases hij : i = j
  · subst hij
    by_cases hi : i < v.length
    · rw [if_pos rfl, if_pos hi, Option.getD_some, ← List.getD_eq_getElem?_getD]
      exact le_add_of_nonneg_right hx
    · rw [if_pos rfl, if_neg hi, List.getElem?_eq_none (le_of_not_lt hi)]
  · rw [if_neg hij]

theorem embStep_getD_mono (dims : Nat) (chars : List Char) (acc : List ℚ)
    (p : Nat × Char) (j : Nat) :
    acc.getD j 0 ≤ (embStep dims chars acc p).getD j 0 := by
  have h1 : 0 ≤ (1 : ℚ) / ((p.1 : ℚ) + 1) := by positivity
  have h2 : 0 ≤ ((1 : ℚ) / 2) / ((p.1 : ℚ) + 1) := by positivity
  have h3 : 0 ≤ (3 : ℚ) / 10 := by norm_num
  simp only [embStep]
  split
  · refine le_trans ?_ (addAt_getD_mono _ _ _ _ h3)
    split
    · exact le_trans (addAt_getD_mono _ _ _ _ h1) (addAt_getD_mono _ _ _ _ h2)
    · exact addAt_getD_mono _ _ _ _ h1
  · split
    · exact le_trans (addAt_getD_mono _ _ _ _ h1) (addAt_getD_mono _ _ _ _ h2)
    · exact addAt_getD_mono _ _ _ _ h1

theorem foldl_embStep_getD_mono (dims : Nat) (chars : List Char) :
    ∀ (ps : List (Nat × Char)) (acc : List ℚ) (j : Nat),
      acc.getD j 0 ≤ (ps.foldl (embStep dims chars) acc).getD j 0 := by
  intro ps
  induction ps with
  | nil => intro acc j; exact le_refl _
  | cons p ps ih =>
    intro acc j
    rw [List.foldl_cons]
    exact le_trans (embStep_getD_mono dims chars acc p j) (ih _ j)

theorem rawEmbedding_entry_ge_one (t : String) (dims : Nat) (hd : 0 < dims)
    (c : Char) (rest : List Char)
    (hch : t.toList.map Char.toLower = c :: rest) :
    1 ≤ (rawEmbedding t dims).getD (c.toNat * (0 + 1) % dims) 0 := by
  have hk : c.toNat * (0 + 1) % dims < dims := Nat.mod_lt _ hd
  have hrep : (List.replicate dims (0 : ℚ)).getD (c.toNat * (0 + 1) % dims) 0 = 0 := by
    rw [List.getD_eq_getElem _ _ (by simpa using hk)]
    simp
  have hacc1 : (addAt (List.replicate dims 0) (c.toNat * (0 + 1) % dims)
      ((1 : ℚ) / (((0 : Nat) : ℚ) + 1))).getD (c.toNat * (0 + 1) % dims) 0 = 1 := by
    unfold addAt
    rw [List.getD_eq_getElem?_getD, List.getElem?_set, if_pos rfl,
      if_pos (by simpa using hk), Option.getD_some, hrep]
    norm_num
  simp only [rawEmbedding, hch]
  rw [show (c :: rest).enum = (0, c) :: List.enumFrom 1 rest from rfl,
    List.foldl_cons]
  refine le_trans ?_ (foldl_embStep_getD_mono dims (c :: rest) (List.enumFrom 1 rest) _ _)
  simp only [embStep]
  split
  · split
    · rename_i hz
      exact absurd hz (by simp)
    · exact le_trans (le_of_eq hacc1.symm) (addAt_getD_mono _ _ _ _ (by norm_num))
  · split
    · rename_i hz
      exact absurd hz (by simp)
    · exact le_of_eq hacc1.symm

theorem rawEmbedding_sqNorm_ge_one (t : String) (dims : Nat) (hd : 0 < dims)
    (hne : t.toList.map Char.toLower ≠ []) :
    1 ≤ sqNorm (rawEmbedding t dims) := by
  obtain ⟨c, rest, hch⟩ := List.exists_cons_of_ne_nil hne
  have hentry := rawEmbedding_entry_ge_one t dims hd c rest hch
  have hklen : c.toNat * (0 + 1) % dims < (rawEmbedding t dims).length := by
    rw [rawEmbedding_length]
    exact Nat.mod_lt _ hd
  have hmem : (rawEmbedding t dims).getD (c.toNat * (0 + 1) % dims) 0
      ∈ rawEmbedding t dims := by
    rw [List.getD_eq_getElem _ _ hklen]
    exact List.getElem_mem hklen
  have hsq : ((rawEmbedding t dims).getD (c.toNat * (0 + 1) % dims) 0)
        * ((rawEmbedding t dims).getD (c.toNat * (0 + 1) % dims) 0)
      ≤ sqNorm (rawEmbedding t dims) := by
    rw [sqNorm_eq_sum_map]
    refine List.single_le_sum (fun x hx => ?_) _ (List.mem_map_of_mem _ hmem)
    obtain ⟨y, hy, rfl⟩ := List.mem_map.mp hx
    exact mul_self_nonneg y
  nlinarith [hentry, hsq]

theorem sum_map_sq_div (m : ℚ) (l : List ℚ) :
    ((l.map (fun x => x / m)).map (fun x => x * x)).sum
      = (l.map (fun x => x * x)).sum / (m * m) := by
  induction l with
  | nil => simp
  | cons x xs ih =>
    simp only [List.map_cons, List.sum_cons, ih, div_mul_div_comm, add_div]

theorem sqNorm_map_div (l : List ℚ) (m : ℚ) :
    sqNorm (l.map (fun x => x / m)) = sqNorm l / (m * m) := by
  rw [sqNorm_eq_sum_map, sqNorm_eq_sum_map, sum_map_sq_div]

theorem sqNorm_replicate_zero (n : Nat) : sqNorm (List.replicate n (0 : ℚ)) = 0 := by
  rw [sqNorm_eq_sum_map]
  induction n with
  | zero => rfl
  | succ k ih => simp [List.replicate_succ, ih]

theorem toList_map_ne_nil (t : String) (h : t ≠ "") :
    t.toList.map Char.toLower ≠ [] := by
  intro hnil
  rw [List.map_eq_nil_iff] at hnil
  exact h (String.ext (by simpa [String.toList] using hnil))

/-- C6: generateEmbedding is a pure function of the lower-cased text, its
output has exactly `dims` entries (default 384), the output has unit squared
L2 norm for every non-empty input (given a square root exact at the raw
squared norm), and the output is the all-zeros vector for the empty input. -/
theorem c6_generateEmbedding_props (sq : ℚ → ℚ) (t : String) (dims : Nat)
    (hd : 0 < dims) (hs0 : sq 0 = 0)
    (hm0 : 0 ≤ sq (sqNorm (rawEmbedding t dims)))
    (hm2 : sq (sqNorm (rawEmbedding t dims)) * sq (sqNorm (rawEmbedding t dims))
        = sqNorm (rawEmbedding t dims)) :
    (generateEmbedding sq t dims).length = dims
    ∧ (∀ t2 : String, t.toList.map Char.toLower = t2.toList.map Char.toLower →
        generateEmbedding sq t dims = generateEmbedding sq t2 dims)
    ∧ (t ≠ "" → sqNorm (generateEmbedding sq t dims) = 1)
    ∧ (t = "" → generateEmbedding sq t dims = List.replicate dims 0) := by
  refine ⟨?_, ?_, ?_, ?_⟩
  · simp only [generateEmbedding]
    split
    · rw [List.length_map, rawEmbedding_length]
    · rw [rawEmbedding_length]
  · intro t2 h2
    have hraw : rawEmbedding t dims = rawEmbedding t2 dims := by
      simp only [rawEmbedding, h2]
    simp only [generateEmbedding, hraw]
  · intro ht
    have hne := toList_map_ne_nil t ht
    have hS1 : 1 ≤ sqNorm (rawEmbedding t dims) := rawEmbedding_sqNorm_ge_one t dims hd hne
    have hSne : sqNorm (rawEmbedding t dims) ≠ 0 := by linarith
    have hm_pos : 0 < sq (sqNorm (rawEmbedding t dims)) := by nlinarith
    simp only [generateEmbedding]
    rw [if_pos hm_pos, sqNorm_map_div, hm2, div_self hSne]
  · intro ht
    subst ht
    have hraw : rawEmbedding "" dims = List.replicate dims 0 := rfl
    simp only [generateEmbedding, hraw, sqNorm_replicate_zero, hs0]
    rw [if_neg (lt_irrefl 0)]

/-- C3: a successful hybrid search never returns two results with the same
belief identifier, and returns at most `options.limit || 10` results. -/
theorem c3_hybrid_nodup_and_limit (sq : ℚ → ℚ) (fts db : List Belief)
    (q : String) (opts : SearchOptions) (res : List BeliefSearchResult)
    (h : searchHybrid sq fts db q opts = Except.ok res) :
    (res.map (fun r => r.belief.id)).Nodup ∧ res.length ≤ defaultLimit opts.limit := by
  unfold searchHybrid at h
  rcases hsem : searchSemantic sq db q
      { opts with limit := some (defaultLimit opts.limit * 2) } with e | sem
  · rw [hsem] at h
    simp [Bind.bind, Except.bind] at h
  · rw [hsem] at h
    simp only [Bind.bind, Except.bind, pure, Except.pure, Except.ok.injEq] at h
    subst h
    set kw := searchKeyword fts { opts with limit := some (defaultLimit opts.limit * 2) }
      with hkw
    have hinv : HybridInv (kw.foldl hybridKeywordStep
        (sem.foldl (hybridSemStep (keywordScoreMap kw)) ([], []))) := by
      refine foldl_hybridInv _ hybridKeywordStep_inv _ _ ?_
      refine foldl_hybridInv _ (hybridSemStep_inv (keywordScoreMap kw)) _ _ ?_
      exact ⟨List.nodup_nil, by simp⟩
    set combined := (kw.foldl hybridKeywordStep
      (sem.foldl (hybridSemStep (keywordScoreMap kw)) ([], []))).2 with hcomb
    constructor
    · have hperm : (combined.mergeSort scoreLE).map (fun r => r.belief.id)
          |>.Perm (combined.map (fun r => r.belief.id)) :=
        (List.mergeSort_perm combined scoreLE).map _
      have hnd : ((combined.mergeSort scoreLE).map (fun r => r.belief.id)).Nodup :=
        hperm.nodup_iff.mpr hinv.1
      exact List.Nodup.sublist
        ((List.take_sublist (defaultLimit opts.limit)
          (combined.mergeSort scoreLE)).map (fun r : BeliefSearchResult => r.belief.id)) hnd
    · exact List.length_take_le _ _

/-! ## Concrete witnesses -/

/-- A concrete active belief used by the witnesses. -/
def sampleBelief : Belief :=
  { id := "s1", text := "sample", domain := BeliefDomain.workflow, confidence := 1 / 2,
    evidence_ids := [], supporting_count := 0, contradicting_count := 0,
    derived_at := 0, last_evaluated := 0, supersedes_id := none,
    invalidated_at := none, invalidation_reason := none, importance := 2,
    tags := [], embedding := none }

theorem c1_confidence_clamping_amended_witness :
    (3 / 10 : ℚ) ≤ 1
    ∧ (∀ b' ∈ adjustConfidence (3 / 10) ["s1"] (-5) [sampleBelief],
        b'.id ∈ ["s1"] → 3 / 10 ≤ b'.confidence ∧ b'.confidence ≤ 1) :=
  ⟨by norm_num,
    (c1_confidence_clamping_amended (3 / 10) (-5) 0 0 ["s1"] [sampleBelief]
      (by norm_num)).1⟩

theorem c3_hybrid_nodup_and_limit_witness :
    searchHybrid (fun x => x) [] [] "" {} = Except.ok []
    ∧ (([] : List BeliefSearchResult).map (fun r => r.belief.id)).Nodup
    ∧ ([] : List BeliefSearchResult).length ≤ defaultLimit ({} : SearchOptions).limit := by
  have h : searchHybrid (fun x => x) [] [] "" {} = Except.ok [] := by
    simp [searchHybrid, searchSemantic, searchKeyword, getActive, truthyLimit,
      defaultLimit, Bind.bind, Except.bind, pure, Except.pure, List.mapM.loop,
      List.mergeSort_nil, List.take_nil, List.foldl_nil, List.reverse_nil]
  exact ⟨h, (c3_hybrid_nodup_and_limit (fun x => x) [] [] "" {} [] h).1,
    (c3_hybrid_nodup_and_limit (fun x => x) [] [] "" {} [] h).2⟩

theorem c4_hybrid_follows_spec_witness :
    (([sampleBelief] : List Belief).map (fun b => b.id)).Nodup
    ∧ searchHybrid (fun x => x) [sampleBelief] [] "" {}
        = searchHybridSpec (fun x => x) [sampleBelief] [] "" {} :=
  ⟨by simp, c4_hybrid_follows_spec (fun x => x) [sampleBelief] [] "" {} (by simp)⟩

theorem c8_getActive_props_witness :
    (3 : Nat) ≠ 0
    ∧ ((∀ b ∈ getActive [sampleBelief] {}, b.invalidated_at = none)
      ∧ (getActive [sampleBelief] {}).Pairwise (fun a b =>
          b.importance < a.importance
            ∨ (a.importance = b.importance ∧ b.confidence ≤ a.confidence))
      ∧ getActive [sampleBelief] { ({} : SearchOptions) with limit := some 3 }
          = (getActive [sampleBelief] { ({} : SearchOptions) with limit := none }).take 3) :=
  ⟨by decide, c8_getActive_props [sampleBelief] {} 3 (by decide)⟩

theorem c6_generateEmbedding_props_witness :
    (0 : ℚ) ≤ sqNorm (rawEmbedding "a" 1)
    ∧ sqNorm (rawEmbedding "a" 1) * sqNorm (rawEmbedding "a" 1)
        = sqNorm (rawEmbedding "a" 1)
    ∧ (generateEmbedding (fun x => x) "a" 1).length = 1
    ∧ sqNorm (generateEmbedding (fun x => x) "a" 1) = 1 := by
  have h1 : sqNorm (rawEmbedding "a" 1) = 1 := by
    rw [show rawEmbedding "a" 1
        = [(List.replicate 1 (0 : ℚ)).getD 0 0 + 1 / (((0 : Nat) : ℚ) + 1)] from rfl]
    norm_num [sqNorm]
  have hth := c6_generateEmbedding_props (fun x => x) "a" 1 (by decide) rfl
    (by rw [h1]; norm_num) (by rw [h1]; norm_num)
  exact ⟨by rw [h1]; norm_num, by rw [h1]; norm_num, hth.1, hth.2.2.1 (by decide)⟩
